import Mathlib

/-!
Shallow embedding of the pybnb coordination core: the priority-queue family
of `src/pybnb/priority_queue.py` and the worker-side dispatcher proxy of
`src/pybnb/dispatcher_proxy.py`.

Conventions of the embedding:
* Double-precision values (bounds, objectives, priorities, payload entries)
  are modelled as rationals; all operations performed on them here are
  negation and comparison, which are exact on floats.
* The Python `heapq` heap is represented by its contents: `heappush` appends
  the entry `(-priority, cnt, item)` and the heap root (`heap[0]`,
  `heappop`) is the lexicographically least entry, which is the observable
  semantics of a binary min-heap over those tuples.  `heapify` only
  rearranges contents, so `filter` keeps the surviving entries.
* The `sortedcontainers.SortedList` secondary index is likewise represented
  by its contents, with `[0]` computed as the least entry under the same
  lexicographic order on `(signed_bound, cnt)`; `add` inserts and `remove`
  deletes one occurrence of an exact tuple.
* Python `assert` statements are runtime preconditions; the functions below
  give the behaviour on assertion-passing runs, and the invariants proved
  further down show the assertions hold on reachable states.
-/

inductive Sense
  | minimize
  | maximize
deriving DecidableEq, Repr

/-- External convergence-checker interface (`pybnb/convergence_checker.py` is
outside the covered core): a sense and a boolean improvement test. -/
structure ConvergenceChecker where
  sense : Sense
  objective_can_improve : ℚ → ℚ → Bool

/-- Modelled from the spec: `pybnb/node.py` is not part of `src/`.  Spec §3
describes the node data as a subproblem descriptor with header fields
`best_objective`, `bound`, `tree_depth` (non-negative integer),
`queue_priority` (unset until a queue stamps or a user assigns it) and an
opaque `user_state` payload.  The `Node._extract_*` / `Node._insert_*`
helpers used by the queues become field access and field update. -/
structure Node where
  best_objective : ℚ
  bound : ℚ
  tree_depth : ℤ
  queue_priority : Option ℚ
  user_state : List ℚ
deriving DecidableEq, Repr

/-- A heap entry `(-priority, cnt, item)` as pushed by
`_NoThreadingMaxPriorityFirstQueue.put`. -/
abbrev HeapEntry := ℚ × ℕ × Node

/-- The comparison key of a heap entry: Python compares the tuples
`(-priority, cnt, item)` lexicographically, and `cnt` is unique, so the
item itself never takes part in the comparison. -/
def entryKey (e : HeapEntry) : ℚ × ℕ := (e.1, e.2.1)

/-- Strict lexicographic order on `(first component, counter)` keys. -/
def keyLt (a b : ℚ × ℕ) : Prop :=
  a.1 < b.1 ∨ (a.1 = b.1 ∧ a.2 < b.2)

instance (a b : ℚ × ℕ) : Decidable (keyLt a b) := by
  unfold keyLt
  infer_instance

/-- Remove the first occurrence of `a` from a list (the effect of
`heappop` on the popped entry and of `SortedList.remove`). -/
def eraseFirst {α : Type} [DecidableEq α] : List α → α → List α
  | [], _ => []
  | x :: xs, a => if x = a then xs else x :: eraseFirst xs a

/-- The heap root: the least entry of the heap contents under the
lexicographic order on `(-priority, cnt)`. -/
def minEntry : List HeapEntry → Option HeapEntry
  | [] => none
  | e :: es =>
    match minEntry es with
    | none => some e
    | some m => if keyLt (entryKey m) (entryKey e) then some m else some e

/-- State of `_NoThreadingMaxPriorityFirstQueue`: the running counter
`_count` and the heap contents `_heap`. -/
structure NoThreadingMaxPriorityFirstQueue where
  count : ℕ
  heap : List HeapEntry
deriving DecidableEq, Repr

def NoThreadingMaxPriorityFirstQueue.size (q : NoThreadingMaxPriorityFirstQueue) : ℕ :=
  q.heap.length

/-- `put(item, priority)`: push `(-priority, cnt, item)` and return the
counter `cnt` together with the new queue state. -/
def NoThreadingMaxPriorityFirstQueue.put (q : NoThreadingMaxPriorityFirstQueue)
    (item : Node) (priority : ℚ) : ℕ × NoThreadingMaxPriorityFirstQueue :=
  (q.count, ⟨q.count + 1, q.heap ++ [(-priority, q.count, item)]⟩)

/-- `get()`: pop and return the highest-priority item (heap root), or
`None` when the queue is empty. -/
def NoThreadingMaxPriorityFirstQueue.get (q : NoThreadingMaxPriorityFirstQueue) :
    Option (Node × NoThreadingMaxPriorityFirstQueue) :=
  match minEntry q.heap with
  | none => none
  | some e => some (e.2.2, ⟨q.count, eraseFirst q.heap e⟩)

/-- `next()`: peek the heap root without removing it. -/
def NoThreadingMaxPriorityFirstQueue.next (q : NoThreadingMaxPriorityFirstQueue) :
    Option Node :=
  match minEntry q.heap with
  | none => none
  | some e => some e.2.2

/-- `filter(func, include_counters=True)`: keep the entries on which
`func(priority, item)` holds (the stored first component is `-priority`),
return the removed `(cnt, item)` pairs in heap-iteration order. -/
def NoThreadingMaxPriorityFirstQueue.filterQ (q : NoThreadingMaxPriorityFirstQueue)
    (func : ℚ → Node → Bool) :
    List (ℕ × Node) × NoThreadingMaxPriorityFirstQueue :=
  ((q.heap.filter (fun e => !(func (-e.1) e.2.2))).map (fun e => (e.2.1, e.2.2)),
   ⟨q.count, q.heap.filter (fun e => func (-e.1) e.2.2)⟩)

def NoThreadingMaxPriorityFirstQueue.items (q : NoThreadingMaxPriorityFirstQueue) :
    List Node :=
  q.heap.map (fun e => e.2.2)

/-- Repeated extraction of the heap root, with explicit fuel (the fuel is
always instantiated with the heap length, which suffices since every
extraction removes one entry). -/
def drainListAux : ℕ → List HeapEntry → List HeapEntry
  | 0, _ => []
  | fuel + 1, l =>
    match minEntry l with
    | none => []
    | some e => e :: drainListAux fuel (eraseFirst l e)

/-- The sequence of heap entries obtained by popping the heap to empty. -/
def drainList (l : List HeapEntry) : List HeapEntry :=
  drainListAux l.length l

/-- State of `WorstBoundFirstPriorityQueue`. -/
structure WorstBoundFirstPriorityQueue where
  best_objective : ℚ
  converger : ConvergenceChecker
  queue : NoThreadingMaxPriorityFirstQueue

def WorstBoundFirstPriorityQueue.init (best : ℚ) (conv : ConvergenceChecker) :
    WorstBoundFirstPriorityQueue :=
  ⟨best, conv, ⟨0, []⟩⟩

def WorstBoundFirstPriorityQueue.size (q : WorstBoundFirstPriorityQueue) : ℕ :=
  q.queue.size

/-- `put(data)`: if the bound passes the improvement test, stamp
`queue_priority = -bound` (minimize) or `+bound` (maximize) onto the node
and push it at that priority; otherwise discard it.  The Python code
mutates `data` in place; here the stamped node is the one stored. -/
def WorstBoundFirstPriorityQueue.put (q : WorstBoundFirstPriorityQueue) (data : Node) :
    Bool × WorstBoundFirstPriorityQueue :=
  let bound := data.bound
  if q.converger.objective_can_improve q.best_objective bound then
    let priority := if q.converger.sense = Sense.minimize then -bound else bound
    let data' := { data with queue_priority := some priority }
    (true, { q with queue := (q.queue.put data' priority).2 })
  else
    (false, q)

def WorstBoundFirstPriorityQueue.get (q : WorstBoundFirstPriorityQueue) :
    Option (Node × WorstBoundFirstPriorityQueue) :=
  match q.queue.get with
  | none => none
  | some r => some (r.1, { q with queue := r.2 })

/-- `bound()`: peek the heap root and return the stored node's bound (the
Python code also asserts the stored priority is the signed bound; the
invariants below show this holds on reachable states). -/
def WorstBoundFirstPriorityQueue.bound (q : WorstBoundFirstPriorityQueue) : Option ℚ :=
  match q.queue.next with
  | none => none
  | some data => some data.bound

/-- `update_for_best_objective(best)`: record the new incumbent and filter
out every node whose bound can no longer improve it; the removed items are
returned (`include_counters=False`). -/
def WorstBoundFirstPriorityQueue.update_for_best_objective
    (q : WorstBoundFirstPriorityQueue) (best : ℚ) :
    List Node × WorstBoundFirstPriorityQueue :=
  let r := q.queue.filterQ (fun _ data => q.converger.objective_can_improve best data.bound)
  (r.1.map (fun p => p.2), { q with best_objective := best, queue := r.2 })

def WorstBoundFirstPriorityQueue.fromPuts (best : ℚ) (conv : ConvergenceChecker)
    (nodes : List Node) : WorstBoundFirstPriorityQueue :=
  nodes.foldl (fun q n => (WorstBoundFirstPriorityQueue.put q n).2)
    (WorstBoundFirstPriorityQueue.init best conv)

def WorstBoundFirstPriorityQueue.drainAux :
    ℕ → WorstBoundFirstPriorityQueue → List Node
  | 0, _ => []
  | fuel + 1, q =>
    match WorstBoundFirstPriorityQueue.get q with
    | none => []
    | some r => r.1 :: WorstBoundFirstPriorityQueue.drainAux fuel r.2

/-- The sequence of nodes returned by calling `get()` until the queue is
empty. -/
def WorstBoundFirstPriorityQueue.drain (q : WorstBoundFirstPriorityQueue) : List Node :=
  WorstBoundFirstPriorityQueue.drainAux q.queue.heap.length q

/-- The signed bound used as the `sorted_by_bound` key: `-bound` when the
sense is maximize, else `bound`. -/
def sbBound (sense : Sense) (n : Node) : ℚ :=
  if sense = Sense.maximize then -n.bound else n.bound

/-- The `sorted_by_bound` companion tuple `(signed_bound, cnt, data)` of a
primary-heap entry. -/
def companionEntry (sense : Sense) (e : HeapEntry) : HeapEntry :=
  (sbBound sense e.2.2, e.2.1, e.2.2)

/-- State of `CustomPriorityQueue` (shared by its breadth-first and
depth-first specializations). -/
structure CustomPriorityQueue where
  best_objective : ℚ
  converger : ConvergenceChecker
  queue : NoThreadingMaxPriorityFirstQueue
  sorted_by_bound : List HeapEntry

def CustomPriorityQueue.init (best : ℚ) (conv : ConvergenceChecker) :
    CustomPriorityQueue :=
  ⟨best, conv, ⟨0, []⟩, []⟩

def CustomPriorityQueue.size (q : CustomPriorityQueue) : ℕ :=
  q.queue.size

/-- `put(data)`: the node must carry a `queue_priority` (Python asserts
this; `Option.getD` supplies a default on assertion-failing inputs).  If
the bound passes the improvement test, push at that priority and insert
`(signed_bound, cnt, data)` into the secondary index. -/
def CustomPriorityQueue.put (q : CustomPriorityQueue) (data : Node) :
    Bool × CustomPriorityQueue :=
  let bound := data.bound
  let priority := data.queue_priority.getD 0
  if q.converger.objective_can_improve q.best_objective bound then
    let r := q.queue.put data priority
    (true, { q with
              queue := r.2,
              sorted_by_bound := q.sorted_by_bound ++ [(sbBound q.converger.sense data, r.1, data)] })
  else
    (false, q)

/-- `get()`: peek the heap root `(-priority, cnt, data)`, pop it, and
remove the companion `(signed_bound, cnt, data)` from the secondary
index. -/
def CustomPriorityQueue.get (q : CustomPriorityQueue) :
    Option (Node × CustomPriorityQueue) :=
  match minEntry q.queue.heap with
  | none => none
  | some e =>
    some (e.2.2,
      { q with
         queue := ⟨q.queue.count, eraseFirst q.queue.heap e⟩,
         sorted_by_bound :=
           eraseFirst q.sorted_by_bound (companionEntry q.converger.sense e) })

/-- `bound()`: the bound of the least element of `sorted_by_bound`
(`SortedList` keeps its contents sorted; `[0]` is the least tuple). -/
def CustomPriorityQueue.bound (q : CustomPriorityQueue) : Option ℚ :=
  match minEntry q.sorted_by_bound with
  | none => none
  | some s => some s.2.2.bound

/-- `update_for_best_objective(best)`: filter the primary heap, and for
each removed `(cnt, data)` also delete its companion tuple from the
secondary index; the removed nodes are returned. -/
def CustomPriorityQueue.update_for_best_objective (q : CustomPriorityQueue) (best : ℚ) :
    List Node × CustomPriorityQueue :=
  let r := q.queue.filterQ (fun _ data => q.converger.objective_can_improve best data.bound)
  let sorted := r.1.foldl
    (fun s p => eraseFirst s (sbBound q.converger.sense p.2, p.1, p.2))
    q.sorted_by_bound
  (r.1.map (fun p => p.2),
   { q with best_objective := best, queue := r.2, sorted_by_bound := sorted })

def CustomPriorityQueue.items (q : CustomPriorityQueue) : List Node :=
  q.queue.items

def CustomPriorityQueue.drainAux : ℕ → CustomPriorityQueue → List Node
  | 0, _ => []
  | fuel + 1, q =>
    match CustomPriorityQueue.get q with
    | none => []
    | some r => r.1 :: CustomPriorityQueue.drainAux fuel r.2

/-- The sequence of nodes returned by calling `get()` until the queue is
empty. -/
def CustomPriorityQueue.drain (q : CustomPriorityQueue) : List Node :=
  CustomPriorityQueue.drainAux q.queue.heap.length q

/-- `BreadthFirstPriorityQueue.put`: stamp `queue_priority = -tree_depth`
onto the node (in place, before the improvement test runs) and delegate to
`CustomPriorityQueue.put`.  The stamped node is returned alongside, making
the in-place mutation of the caller's node visible. -/
def BreadthFirstPriorityQueue.put (q : CustomPriorityQueue) (data : Node) :
    Bool × CustomPriorityQueue × Node :=
  let data' := { data with queue_priority := some (-(data.tree_depth : ℚ)) }
  let r := CustomPriorityQueue.put q data'
  (r.1, r.2, data')

/-- `DepthFirstPriorityQueue.put`: stamp `queue_priority = tree_depth`
onto the node (in place, before the improvement test runs) and delegate to
`CustomPriorityQueue.put`. -/
def DepthFirstPriorityQueue.put (q : CustomPriorityQueue) (data : Node) :
    Bool × CustomPriorityQueue × Node :=
  let data' := { data with queue_priority := some ((data.tree_depth : ℚ)) }
  let r := CustomPriorityQueue.put q data'
  (r.1, r.2, data')

def BreadthFirstPriorityQueue.fromPuts (best : ℚ) (conv : ConvergenceChecker)
    (nodes : List Node) : CustomPriorityQueue :=
  nodes.foldl (fun q n => (BreadthFirstPriorityQueue.put q n).2.1)
    (CustomPriorityQueue.init best conv)

def DepthFirstPriorityQueue.fromPuts (best : ℚ) (conv : ConvergenceChecker)
    (nodes : List Node) : CustomPriorityQueue :=
  nodes.foldl (fun q n => (DepthFirstPriorityQueue.put q n).2.1)
    (CustomPriorityQueue.init best conv)

/-- One externally observable operation on a custom-strategy queue. -/
inductive QOp
  | put : Node → QOp
  | putBreadthFirst : Node → QOp
  | putDepthFirst : Node → QOp
  | get : QOp
  | update : ℚ → QOp

def stepOp (q : CustomPriorityQueue) : QOp → CustomPriorityQueue
  | QOp.put n => (CustomPriorityQueue.put q n).2
  | QOp.putBreadthFirst n => (BreadthFirstPriorityQueue.put q n).2.1
  | QOp.putDepthFirst n => (DepthFirstPriorityQueue.put q n).2.1
  | QOp.get =>
    match CustomPriorityQueue.get q with
    | none => q
    | some r => r.2
  | QOp.update b => (CustomPriorityQueue.update_for_best_objective q b).2

def applyOps (q0 : CustomPriorityQueue) (ops : List QOp) : CustomPriorityQueue :=
  ops.foldl stepOp q0


/-- Typecodes categorising processes during dispatcher startup. -/
def ProcessType.worker : ℕ := 0

def ProcessType.dispatcher : ℕ := 1

/-- Typecodes of messages sent by workers to the dispatcher. -/
def DispatcherAction.update : ℕ := 111

def DispatcherAction.solve_finished : ℕ := 211

def DispatcherAction.barrier : ℕ := 311

def DispatcherAction.finalize : ℕ := 411

def DispatcherAction.log_info : ℕ := 511

def DispatcherAction.log_warning : ℕ := 611

def DispatcherAction.log_debug : ℕ := 711

def DispatcherAction.log_error : ℕ := 811

/-- Typecodes of dispatcher responses received by workers. -/
def DispatcherResponse.work : ℕ := 1111

def DispatcherResponse.nowork : ℕ := 2111

/-- The update frame packed by `DispatcherProxy._update`: the contiguous
double buffer `[best_objective, previous_bound, explored_nodes_count, k]`
followed, for each of the `k` node states, by its length and then its
payload.  The loop advancing `pos` through the numpy buffer becomes a left
fold appending each length-prefixed state. -/
def packUpdate (best_objective previous_bound : ℚ) (explored_nodes_count : ℕ)
    (node_states : List (List ℚ)) : List ℚ :=
  node_states.foldl (fun acc udata => acc ++ ((udata.length : ℚ) :: udata))
    [best_objective, previous_bound, (explored_nodes_count : ℚ),
     (node_states.length : ℚ)]

/-- Modelled from the spec: the dispatcher-side decoding of the
variable-length state section of an update frame is not part of `src/`
(it lives in `pybnb/dispatcher.py`); spec §4.2 gives the layout as `k`
blocks, each a length `len_i` (an f64-held integer) followed by `len_i`
payload doubles, with nothing after the last block. -/
def unpackStates : ℕ → List ℚ → Option (List (List ℚ))
  | 0, rest => if rest = [] then some [] else none
  | _ + 1, [] => none
  | k + 1, lenq :: rest =>
    let n := lenq.num.toNat
    if (n : ℚ) = lenq ∧ n ≤ rest.length then
      match unpackStates k (rest.drop n) with
      | some ss => some (rest.take n :: ss)
      | none => none
    else none

/-- Modelled from the spec: the dispatcher-side decoding of a whole update
frame (spec §4.2), checking that the integer-valued header slots
`explored_nodes_count` and `k` hold exact naturals. -/
def unpackUpdate (buf : List ℚ) : Option (ℚ × ℚ × ℕ × List (List ℚ)) :=
  match buf with
  | best :: prev :: e :: k :: rest =>
    if ((e.num.toNat : ℚ) = e ∧ (k.num.toNat : ℚ) = k) then
      match unpackStates k.num.toNat rest with
      | some ss => some (best, prev, e.num.toNat, ss)
      | none => none
    else none
  | _ => none

/-- The length-prefixed concatenation of the node states: for each state,
its length followed by its payload doubles (the variable section of the
update frame of spec §4.2). -/
def lenPrefixed : List (List ℚ) → List ℚ
  | [] => []
  | u :: us => ((u.length : ℚ) :: u) ++ lenPrefixed us

/-- Modelled from the spec: `Node._extract_best_objective` reads the
incumbent snapshot out of a serialized node state; `pybnb/node.py` is not
part of `src/`, and spec §3/§9 place `best_objective` in the first slot of
the fixed f64 header of the node buffer. -/
def extractBestObjective (state : List ℚ) : ℚ :=
  state.headD 0

/-- The reply branch of `DispatcherProxy._update` after the probe: a
`nowork` tag yields `(payload[0], None)` from the single-double payload, a
`work` tag yields the received state together with the best objective
extracted from inside it, and any other tag is a fatal assertion failure
(modelled as `none`). -/
def handleUpdateReply (tag : ℕ) (payload : List ℚ) : Option (ℚ × Option (List ℚ)) :=
  if tag = DispatcherResponse.nowork then
    some (payload.headD 0, none)
  else if tag = DispatcherResponse.work then
    some (extractBestObjective payload, some payload)
  else
    none

/-- The `(ptype, rank)` pairs contributed to the MAXLOC reduction by the
ranks of the group, in rank order starting at `r`. -/
def rankPairs : List ℕ → ℕ → List (ℕ × ℕ)
  | [], _ => []
  | t :: ts, r => (t, r) :: rankPairs ts (r + 1)

/-- The MPI MAXLOC reduction over `(value, rank)` pairs: the maximal value
together with the least rank attaining it (ties keep the earlier pair). -/
def maxloc : List (ℕ × ℕ) → Option (ℕ × ℕ)
  | [] => none
  | p :: ps =>
    match maxloc ps with
    | none => some p
    | some m => if p.1 < m.1 then some m else some p

/-- `DispatcherProxy._init`, given the `ptype` contributed by every rank of
the group: assert the all-reduced sum equals `dispatcher = 1`, elect the
dispatcher rank `drank` by MAXLOC, assert the elected type is
`dispatcher`, and designate the root worker as `size - 1`, decremented
once when that collides with `drank`.  Failing assertions abort the
process, modelled as `none`. -/
def handshakeInit (ptypes : List ℕ) : Option (ℕ × ℤ) :=
  if ptypes.sum = 1 then
    match maxloc (rankPairs ptypes 0) with
    | none => none
    | some dp =>
      if dp.1 = ProcessType.dispatcher then
        some (dp.2,
          if (dp.2 : ℤ) = (ptypes.length : ℤ) - 1 then (ptypes.length : ℤ) - 2
          else (ptypes.length : ℤ) - 1)
      else none
  else none

/-- The communicator a collective call runs on: the global communicator
`comm` or the worker sub-communicator `wcomm`. -/
inductive CommScope
  | global
  | worker
deriving DecidableEq, Repr

/-- The rank a worker holds inside `wcomm = comm.Split(0 if rank != drank
else 1)`: with equal split keys, MPI orders the colour-0 group by original
rank, so worker `r` gets rank `r` minus one when the dispatcher precedes
it. -/
def wcommRank (drank r : ℕ) : ℕ :=
  if drank < r then r - 1 else r

/-- A broadcast call: which communicator it runs on, its root rank in that
communicator, and the value each rank holds before the call. -/
structure BcastSpec where
  scope : CommScope
  root : ℕ
  payload : ℕ → Option ℕ

/-- The root-worker-rank distribution at the end of
`DispatcherProxy.__init__`: every rank starts with `None` except the root
worker, which holds its own `worker_comm.rank`; the value is then
broadcast by `self.comm.bcast(..., root=self.root_worker_comm_rank)`,
i.e. on the global communicator rooted at the root worker's `comm`
rank. -/
def initRootWorkerBcast (drank root_worker_comm_rank : ℕ) : BcastSpec :=
  { scope := CommScope.global,
    root := root_worker_comm_rank,
    payload := fun r =>
      if r = root_worker_comm_rank then some (wcommRank drank r) else none }

/-- Broadcast semantics: after the call, every rank holds the root's
value. -/
def bcastRun (b : BcastSpec) : ℕ → Option ℕ :=
  fun _ => b.payload b.root

/-- Counter discipline of the primary heap: counters are pairwise distinct
and below the running counter. -/
def HeapCounters (q : NoThreadingMaxPriorityFirstQueue) : Prop :=
  (q.heap.map (fun e => e.2.1)).Nodup ∧ ∀ e ∈ q.heap, e.2.1 < q.count

/-- The two-index synchronisation invariant of `CustomPriorityQueue`: the
secondary index holds exactly the companion tuples of the primary heap
entries, heap counters are distinct, and all counters are below the running
counter. -/
def CustomInv (q : CustomPriorityQueue) : Prop :=
  q.sorted_by_bound.Perm (q.queue.heap.map (companionEntry q.converger.sense)) ∧
  HeapCounters q.queue

/-- Invariant of a minimize-sense worst-bound-first queue: every stored
entry was keyed by the node's bound and stamped with
`queue_priority = -bound`. -/
def WBFMinInv (q : WorstBoundFirstPriorityQueue) : Prop :=
  (∀ e ∈ q.queue.heap,
    e.1 = e.2.2.bound ∧ e.2.2.queue_priority = some (-e.2.2.bound)) ∧
  HeapCounters q.queue

/-- Invariant of a queue populated through `DepthFirstPriorityQueue.put`:
every stored entry was keyed by `-tree_depth` and stamped with
`queue_priority = tree_depth`. -/
def DFInv (q : CustomPriorityQueue) : Prop :=
  (∀ e ∈ q.queue.heap,
    e.1 = -(e.2.2.tree_depth : ℚ) ∧
    e.2.2.queue_priority = some ((e.2.2.tree_depth : ℚ))) ∧
  HeapCounters q.queue

/-- Invariant of a queue populated through `BreadthFirstPriorityQueue.put`:
every stored entry was keyed by `tree_depth` and stamped with
`queue_priority = -tree_depth`. -/
def BFInv (q : CustomPriorityQueue) : Prop :=
  (∀ e ∈ q.queue.heap,
    e.1 = (e.2.2.tree_depth : ℚ) ∧
    e.2.2.queue_priority = some (-(e.2.2.tree_depth : ℚ))) ∧
  HeapCounters q.queue

/-- A concrete minimize-sense convergence checker (strict improvement),
used to instantiate proved statements at explicit inputs. -/
def convMin : ConvergenceChecker :=
  ⟨Sense.minimize, fun best bnd => decide (bnd < best)⟩

/-- A concrete maximize-sense convergence checker (strict improvement). -/
def convMax : ConvergenceChecker :=
  ⟨Sense.maximize, fun best bnd => decide (best < bnd)⟩

/-- A concrete node with the given bound, depth and priority. -/
def mkNode (b : ℚ) (d : ℤ) (p : Option ℚ) : Node :=
  ⟨0, b, d, p, []⟩

/-- Concrete nodes with bounds 5, 1, 3 (spec §8 scenario 2). -/
def nodesA : List Node :=
  [mkNode 5 0 (some 1), mkNode 1 1 (some 2), mkNode 3 2 (some 3)]

theorem keyLt_trichotomy (a b : ℚ × ℕ) (h : a ≠ b) : keyLt a b ∨ keyLt b a := by
  rcases a with ⟨a1, a2⟩
  rcases b with ⟨b1, b2⟩
  unfold keyLt
  rcases lt_trichotomy a1 b1 with h1 | h1 | h1
  · exact Or.inl (Or.inl h1)
  · subst h1
    rcases lt_trichotomy a2 b2 with h2 | h2 | h2
    · exact Or.inl (Or.inr ⟨rfl, h2⟩)
    · exact absurd (by rw [h2]) h
    · exact Or.inr (Or.inr ⟨rfl, h2⟩)
  · exact Or.inr (Or.inl h1)

theorem keyLt_irrefl (a : ℚ × ℕ) : ¬ keyLt a a := by
  unfold keyLt
  simp

theorem keyLt_trans {a b c : ℚ × ℕ} (h1 : keyLt a b) (h2 : keyLt b c) : keyLt a c := by
  rcases h1 with h1 | ⟨h1, h1n⟩ <;> rcases h2 with h2 | ⟨h2, h2n⟩
  · exact Or.inl (lt_trans h1 h2)
  · exact Or.inl (h2 ▸ h1)
  · exact Or.inl (h1 ▸ h2)
  · exact Or.inr ⟨h1.trans h2, lt_trans h1n h2n⟩

theorem keyLt_asymm {a b : ℚ × ℕ} (h : keyLt a b) : ¬ keyLt b a :=
  fun h2 => keyLt_irrefl a (keyLt_trans h h2)

theorem keyLt_total (a b : ℚ × ℕ) : keyLt a b ∨ a = b ∨ keyLt b a := by
  by_cases h : a = b
  · exact Or.inr (Or.inl h)
  · rcases keyLt_trichotomy a b h with h | h
    · exact Or.inl h
    · exact Or.inr (Or.inr h)

theorem minEntry_eq_none {l : List HeapEntry} : minEntry l = none ↔ l = [] := by
  cases l with
  | nil => simp [minEntry]
  | cons e es =>
    simp only [minEntry]
    cases minEntry es with
    | none => simp
    | some m =>
      by_cases h : keyLt (entryKey m) (entryKey e) <;> simp [h]

theorem minEntry_mem : ∀ {l : List HeapEntry} {e : HeapEntry},
    minEntry l = some e → e ∈ l := by
  intro l
  induction l with
  | nil => intro e h; simp [minEntry] at h
  | cons x xs ih =>
    intro e h
    cases hm : minEntry xs with
    | none =>
      simp only [minEntry, hm] at h
      injection h with h
      exact h ▸ List.mem_cons_self x xs
    | some m =>
      simp only [minEntry, hm] at h
      by_cases hk : keyLt (entryKey m) (entryKey x)
      · rw [if_pos hk] at h
        injection h with h
        exact List.mem_cons_of_mem x (ih (h ▸ hm))
      · rw [if_neg hk] at h
        injection h with h
        exact h ▸ List.mem_cons_self x xs

theorem minEntry_min : ∀ {l : List HeapEntry} {e : HeapEntry},
    minEntry l = some e → ∀ x ∈ l, ¬ keyLt (entryKey x) (entryKey e) := by
  intro l
  induction l with
  | nil => intro e h; simp [minEntry] at h
  | cons y ys ih =>
    intro e h x hx
    cases hm : minEntry ys with
    | none =>
      simp only [minEntry, hm] at h
      injection h with h
      subst h
      have hys : ys = [] := minEntry_eq_none.mp hm
      subst hys
      rcases List.mem_cons.mp hx with rfl | hx
      · exact keyLt_irrefl _
      · exact absurd hx (List.not_mem_nil x)
    | some m =>
      simp only [minEntry, hm] at h
      by_cases hk : keyLt (entryKey m) (entryKey y)
      · rw [if_pos hk] at h
        injection h with h
        subst h
        rcases List.mem_cons.mp hx with rfl | hx
        · exact keyLt_asymm hk
        · exact ih hm x hx
      · rw [if_neg hk] at h
        injection h with h
        subst h
        rcases List.mem_cons.mp hx with rfl | hx
        · exact keyLt_irrefl _
        · intro hxy
          rcases keyLt_total (entryKey m) (entryKey y) with hmy | hmy | hmy
          · exact hk hmy
          · exact ih hm x hx (hmy ▸ hxy)
          · exact ih hm x hx (keyLt_trans hxy hmy)

theorem eraseFirst_cons_self {α : Type} [DecidableEq α] (a : α) (l : List α) :
    eraseFirst (a :: l) a = l := by
  simp [eraseFirst]

theorem eraseFirst_sublist {α : Type} [DecidableEq α] :
    ∀ (l : List α) (a : α), (eraseFirst l a).Sublist l := by
  intro l a
  induction l with
  | nil => simp [eraseFirst]
  | cons x xs ih =>
    by_cases h : x = a
    · simp only [eraseFirst, if_pos h]
      exact List.sublist_cons_self x xs
    · simp only [eraseFirst, if_neg h]
      exact ih.cons₂ x

theorem eraseFirst_subset {α : Type} [DecidableEq α] (l : List α) (a : α) :
    ∀ x ∈ eraseFirst l a, x ∈ l :=
  fun _ hx => (eraseFirst_sublist l a).subset hx

theorem perm_cons_eraseFirst {α : Type} [DecidableEq α] :
    ∀ {l : List α} {a : α}, a ∈ l → l.Perm (a :: eraseFirst l a) := by
  intro l
  induction l with
  | nil => intro a h; exact absurd h (List.not_mem_nil a)
  | cons x xs ih =>
    intro a h
    by_cases hx : x = a
    · subst hx
      rw [eraseFirst_cons_self]
    · simp only [eraseFirst, if_neg hx]
      rcases List.mem_cons.mp h with rfl | h
      · exact absurd rfl hx
      · exact ((ih h).cons x).trans (List.Perm.swap a x (eraseFirst xs a))

theorem length_eraseFirst_of_mem {α : Type} [DecidableEq α] {l : List α} {a : α}
    (h : a ∈ l) : (eraseFirst l a).length + 1 = l.length := by
  have := (perm_cons_eraseFirst h).length_eq
  simpa using this.symm

theorem perm_eraseFirst {α : Type} [DecidableEq α] (a : α) {l₁ l₂ : List α}
    (h : l₁.Perm l₂) : (eraseFirst l₁ a).Perm (eraseFirst l₂ a) := by
  induction h with
  | nil => simp [eraseFirst]
  | cons x h ih =>
    by_cases hx : x = a
    · simpa [eraseFirst, hx] using h
    · simpa [eraseFirst, hx] using ih.cons x
  | swap x y l =>
    by_cases hy : y = a
    · by_cases hx : x = a
      · simp [eraseFirst, hx, hy]
      · simp [eraseFirst, hx, hy]
    · by_cases hx : x = a
      · simp [eraseFirst, hx, hy]
      · simp only [eraseFirst, if_neg hx, if_neg hy]
        exact List.Perm.swap x y (eraseFirst l a)
  | trans _ _ ih1 ih2 => exact ih1.trans ih2

theorem map_eraseFirst_perm {α β : Type} [DecidableEq α] [DecidableEq β]
    (f : α → β) {e : α} {l : List α} (h : e ∈ l) :
    ((eraseFirst l e).map f).Perm (eraseFirst (l.map f) (f e)) := by
  have h1 : (l.map f).Perm (f e :: (eraseFirst l e).map f) :=
    (perm_cons_eraseFirst h).map f
  have h2 := perm_eraseFirst (f e) h1
  rw [eraseFirst_cons_self] at h2
  exact h2.symm

theorem perm_foldl_eraseFirst {α : Type} [DecidableEq α] :
    ∀ (b s keep : List α), s.Perm (keep ++ b) →
      (b.foldl (fun t x => eraseFirst t x) s).Perm keep := by
  intro b
  induction b with
  | nil => intro s keep h; simpa using h
  | cons x b' ih =>
    intro s keep h
    have h1 : s.Perm (x :: (keep ++ b')) := h.trans List.perm_middle
    have h2 : (eraseFirst s x).Perm (keep ++ b') := by
      have := perm_eraseFirst x h1
      rwa [eraseFirst_cons_self] at this
    exact ih (eraseFirst s x) keep h2

theorem drainListAux_perm :
    ∀ (fuel : ℕ) (l : List HeapEntry), l.length ≤ fuel →
      (drainListAux fuel l).Perm l := by
  intro fuel
  induction fuel with
  | zero =>
    intro l hl
    have : l = [] := List.length_eq_zero.mp (Nat.le_zero.mp hl)
    subst this
    simp [drainListAux]
  | succ fuel ih =>
    intro l hl
    cases hm : minEntry l with
    | none =>
      have : l = [] := minEntry_eq_none.mp hm
      subst this
      simp [drainListAux, minEntry]
    | some e =>
      have he : e ∈ l := minEntry_mem hm
      have hlen : (eraseFirst l e).length ≤ fuel := by
        have := length_eraseFirst_of_mem he
        omega
      have := (ih (eraseFirst l e) hlen).cons e
      simp only [drainListAux, hm]
      exact this.trans (perm_cons_eraseFirst he).symm

theorem nodup_counters_eraseFirst {l : List HeapEntry} {e : HeapEntry}
    (h : (l.map (fun x => x.2.1)).Nodup) :
    ((eraseFirst l e).map (fun x => x.2.1)).Nodup :=
  h.sublist ((eraseFirst_sublist l e).map _)

theorem counter_ne_of_mem_eraseFirst {l : List HeapEntry} {e x : HeapEntry}
    (he : e ∈ l) (h : (l.map (fun y => y.2.1)).Nodup)
    (hx : x ∈ eraseFirst l e) : x.2.1 ≠ e.2.1 := by
  have hperm : (l.map (fun y => y.2.1)).Perm
      (e.2.1 :: (eraseFirst l e).map (fun y => y.2.1)) := by
    simpa using (perm_cons_eraseFirst he).map (fun y => y.2.1)
  have hnd : (e.2.1 :: (eraseFirst l e).map (fun y => y.2.1)).Nodup :=
    hperm.nodup h
  have hnotin : e.2.1 ∉ (eraseFirst l e).map (fun y => y.2.1) :=
    (List.nodup_cons.mp hnd).1
  intro hcontra
  exact hnotin (hcontra ▸ List.mem_map_of_mem (fun y => y.2.1) hx)

theorem drainListAux_pairwise :
    ∀ (fuel : ℕ) (l : List HeapEntry), l.length ≤ fuel →
      (l.map (fun e => e.2.1)).Nodup →
      (drainListAux fuel l).Pairwise
        (fun a b => keyLt (entryKey a) (entryKey b)) := by
  intro fuel
  induction fuel with
  | zero => intro l hl hnd; simp [drainListAux]
  | succ fuel ih =>
    intro l hl hnd
    cases hm : minEntry l with
    | none => simp [drainListAux, hm]
    | some e =>
      have he : e ∈ l := minEntry_mem hm
      have hlen : (eraseFirst l e).length ≤ fuel := by
        have := length_eraseFirst_of_mem he
        omega
      have hnd' := nodup_counters_eraseFirst (e := e) hnd
      simp only [drainListAux, hm]
      refine List.Pairwise.cons ?_ (ih (eraseFirst l e) hlen hnd')
      intro x hx
      have hx' : x ∈ eraseFirst l e :=
        (drainListAux_perm fuel (eraseFirst l e) hlen).mem_iff.mp hx
      have hxl : x ∈ l := eraseFirst_subset l e x hx'
      have hnotlt : ¬ keyLt (entryKey x) (entryKey e) := minEntry_min hm x hxl
      have hne : entryKey x ≠ entryKey e := by
        intro hcontra
        exact counter_ne_of_mem_eraseFirst he hnd hx'
          (congrArg Prod.snd hcontra)
      rcases keyLt_total (entryKey e) (entryKey x) with h | h | h
      · exact h
      · exact absurd h.symm hne
      · exact absurd h hnotlt

theorem drainListAux_congr :
    ∀ (f1 f2 : ℕ) (l : List HeapEntry), l.length ≤ f1 → l.length ≤ f2 →
      drainListAux f1 l = drainListAux f2 l := by
  intro f1
  induction f1 with
  | zero =>
    intro f2 l h1 h2
    have : l = [] := List.length_eq_zero.mp (Nat.le_zero.mp h1)
    subst this
    cases f2 <;> simp [drainListAux, minEntry]
  | succ f1 ih =>
    intro f2 l h1 h2
    cases f2 with
    | zero =>
      have : l = [] := List.length_eq_zero.mp (Nat.le_zero.mp h2)
      subst this
      simp [drainListAux, minEntry]
    | succ f2 =>
      cases hm : minEntry l with
      | none => simp [drainListAux, hm]
      | some e =>
        have he : e ∈ l := minEntry_mem hm
        have hlen := length_eraseFirst_of_mem he
        simp only [drainListAux, hm]
        rw [ih f2 (eraseFirst l e) (by omega) (by omega)]

theorem drainList_perm (l : List HeapEntry) : (drainList l).Perm l :=
  drainListAux_perm l.length l le_rfl

theorem drainList_pairwise {l : List HeapEntry}
    (h : (l.map (fun e => e.2.1)).Nodup) :
    (drainList l).Pairwise (fun a b => keyLt (entryKey a) (entryKey b)) :=
  drainListAux_pairwise l.length l le_rfl h

theorem heapCounters_init : HeapCounters ⟨0, []⟩ := by
  constructor <;> simp

theorem heapCounters_put {q : NoThreadingMaxPriorityFirstQueue}
    (h : HeapCounters q) (item : Node) (p : ℚ) :
    HeapCounters (q.put item p).2 := by
  obtain ⟨hnd, hlt⟩ := h
  constructor
  · simp only [NoThreadingMaxPriorityFirstQueue.put, List.map_append, List.map_cons,
      List.map_nil]
    rw [List.nodup_append]
    refine ⟨hnd, List.nodup_singleton _, ?_⟩
    intro c hc hc'
    simp at hc'
    rcases List.mem_map.mp hc with ⟨e, he, rfl⟩
    exact absurd (hc' ▸ hlt e he) (lt_irrefl _)
  · intro e he
    simp only [NoThreadingMaxPriorityFirstQueue.put, List.mem_append,
      List.mem_singleton] at he
    rcases he with he | he
    · exact lt_trans (hlt e he) (Nat.lt_succ_self _)
    · subst he
      exact Nat.lt_succ_self _

theorem heapCounters_eraseFirst {q : NoThreadingMaxPriorityFirstQueue}
    (h : HeapCounters q) (e : HeapEntry) :
    HeapCounters ⟨q.count, eraseFirst q.heap e⟩ := by
  obtain ⟨hnd, hlt⟩ := h
  exact ⟨hnd.sublist ((eraseFirst_sublist q.heap e).map _),
    fun x hx => hlt x (eraseFirst_subset q.heap e x hx)⟩

theorem heapCounters_filter {q : NoThreadingMaxPriorityFirstQueue}
    (h : HeapCounters q) (p : HeapEntry → Bool) :
    HeapCounters ⟨q.count, q.heap.filter p⟩ := by
  obtain ⟨hnd, hlt⟩ := h
  exact ⟨hnd.sublist ((List.filter_sublist q.heap).map _),
    fun x hx => hlt x (List.mem_of_mem_filter hx)⟩

theorem wbf_put_converger (q : WorstBoundFirstPriorityQueue) (data : Node) :
    ((WorstBoundFirstPriorityQueue.put q data).2).converger = q.converger := by
  simp only [WorstBoundFirstPriorityQueue.put]
  split <;> rfl

theorem wbfMinInv_put {q : WorstBoundFirstPriorityQueue} (data : Node)
    (hs : q.converger.sense = Sense.minimize) (h : WBFMinInv q) :
    WBFMinInv (WorstBoundFirstPriorityQueue.put q data).2 := by
  obtain ⟨hstamp, hc⟩ := h
  simp only [WorstBoundFirstPriorityQueue.put, hs, if_true]
  split
  · refine ⟨?_, heapCounters_put hc _ _⟩
    intro e he
    simp only [NoThreadingMaxPriorityFirstQueue.put, List.mem_append,
      List.mem_singleton] at he
    rcases he with he | he
    · exact hstamp e he
    · subst he
      constructor <;> simp
  · exact ⟨hstamp, hc⟩

theorem wbfMinInv_foldl :
    ∀ (nodes : List Node) (q : WorstBoundFirstPriorityQueue),
      q.converger.sense = Sense.minimize → WBFMinInv q →
      WBFMinInv (nodes.foldl
        (fun q n => (WorstBoundFirstPriorityQueue.put q n).2) q) := by
  intro nodes
  induction nodes with
  | nil => intro q hs h; exact h
  | cons n ns ih =>
    intro q hs h
    simp only [List.foldl_cons]
    exact ih _ (by rw [wbf_put_converger]; exact hs) (wbfMinInv_put n hs h)

theorem wbfMinInv_fromPuts (best : ℚ) (conv : ConvergenceChecker)
    (nodes : List Node) (hs : conv.sense = Sense.minimize) :
    WBFMinInv (WorstBoundFirstPriorityQueue.fromPuts best conv nodes) :=
  wbfMinInv_foldl nodes _ hs
    ⟨by simp [WorstBoundFirstPriorityQueue.init], heapCounters_init⟩

theorem wbf_foldl_converger :
    ∀ (nodes : List Node) (q : WorstBoundFirstPriorityQueue),
      ((nodes.foldl
        (fun q n => (WorstBoundFirstPriorityQueue.put q n).2) q)).converger =
      q.converger := by
  intro nodes
  induction nodes with
  | nil => intro q; rfl
  | cons n ns ih =>
    intro q
    simp only [List.foldl_cons]
    rw [ih, wbf_put_converger]

theorem wbf_fromPuts_converger (best : ℚ) (conv : ConvergenceChecker)
    (nodes : List Node) :
    (WorstBoundFirstPriorityQueue.fromPuts best conv nodes).converger = conv :=
  wbf_foldl_converger nodes _

theorem wbf_drainAux_eq :
    ∀ (fuel : ℕ) (q : WorstBoundFirstPriorityQueue), q.queue.heap.length ≤ fuel →
      WorstBoundFirstPriorityQueue.drainAux fuel q =
        (drainListAux fuel q.queue.heap).map (fun e => e.2.2) := by
  intro fuel
  induction fuel with
  | zero =>
    intro q h
    simp [WorstBoundFirstPriorityQueue.drainAux, drainListAux]
  | succ fuel ih =>
    intro q h
    cases hm : minEntry q.queue.heap with
    | none =>
      simp [WorstBoundFirstPriorityQueue.drainAux, drainListAux, hm,
        WorstBoundFirstPriorityQueue.get, NoThreadingMaxPriorityFirstQueue.get]
    | some e =>
      have he := minEntry_mem hm
      have hlen := length_eraseFirst_of_mem he
      have hrec := ih { q with queue := ⟨q.queue.count, eraseFirst q.queue.heap e⟩ }
        (by simp only []; omega)
      simp only [WorstBoundFirstPriorityQueue.drainAux, drainListAux, hm,
        WorstBoundFirstPriorityQueue.get, NoThreadingMaxPriorityFirstQueue.get,
        List.map_cons]
      rw [hrec]

theorem wbf_drain_eq (q : WorstBoundFirstPriorityQueue) :
    WorstBoundFirstPriorityQueue.drain q =
      (drainList q.queue.heap).map (fun e => e.2.2) :=
  wbf_drainAux_eq q.queue.heap.length q le_rfl

theorem custom_drainAux_eq :
    ∀ (fuel : ℕ) (q : CustomPriorityQueue), q.queue.heap.length ≤ fuel →
      CustomPriorityQueue.drainAux fuel q =
        (drainListAux fuel q.queue.heap).map (fun e => e.2.2) := by
  intro fuel
  induction fuel with
  | zero =>
    intro q h
    simp [CustomPriorityQueue.drainAux, drainListAux]
  | succ fuel ih =>
    intro q h
    cases hm : minEntry q.queue.heap with
    | none =>
      simp [CustomPriorityQueue.drainAux, drainListAux, hm,
        CustomPriorityQueue.get]
    | some e =>
      have he := minEntry_mem hm
      have hlen := length_eraseFirst_of_mem he
      have hrec := ih
        { q with
           queue := ⟨q.queue.count, eraseFirst q.queue.heap e⟩,
           sorted_by_bound :=
             eraseFirst q.sorted_by_bound (companionEntry q.converger.sense e) }
        (by simp only []; omega)
      simp only [CustomPriorityQueue.drainAux, drainListAux, hm,
        CustomPriorityQueue.get, List.map_cons]
      rw [hrec]

theorem custom_drain_eq (q : CustomPriorityQueue) :
    CustomPriorityQueue.drain q =
      (drainList q.queue.heap).map (fun e => e.2.2) :=
  custom_drainAux_eq q.queue.heap.length q le_rfl

theorem customInv_init (best : ℚ) (conv : ConvergenceChecker) :
    CustomInv (CustomPriorityQueue.init best conv) :=
  ⟨by simp [CustomPriorityQueue.init], heapCounters_init⟩

theorem custom_put_converger (q : CustomPriorityQueue) (data : Node) :
    ((CustomPriorityQueue.put q data).2).converger = q.converger := by
  simp only [CustomPriorityQueue.put]
  split <;> rfl

theorem customInv_put {q : CustomPriorityQueue} (h : CustomInv q) (data : Node) :
    CustomInv (CustomPriorityQueue.put q data).2 := by
  obtain ⟨hperm, hc⟩ := h
  simp only [CustomPriorityQueue.put]
  split
  · refine ⟨?_, heapCounters_put hc _ _⟩
    simp only [NoThreadingMaxPriorityFirstQueue.put, List.map_append, List.map_cons,
      List.map_nil, companionEntry]
    exact hperm.append_right _
  · exact ⟨hperm, hc⟩

theorem customInv_get {q : CustomPriorityQueue} (h : CustomInv q)
    {n : Node} {q' : CustomPriorityQueue}
    (hg : CustomPriorityQueue.get q = some (n, q')) : CustomInv q' := by
  obtain ⟨hperm, hc⟩ := h
  cases hm : minEntry q.queue.heap with
  | none => simp [CustomPriorityQueue.get, hm] at hg
  | some e =>
    have he := minEntry_mem hm
    simp only [CustomPriorityQueue.get, hm, Option.some.injEq, Prod.mk.injEq] at hg
    obtain ⟨-, hq'⟩ := hg
    subst hq'
    refine ⟨?_, heapCounters_eraseFirst hc e⟩
    have h1 : (eraseFirst q.sorted_by_bound (companionEntry q.converger.sense e)).Perm
        (eraseFirst (q.queue.heap.map (companionEntry q.converger.sense))
          (companionEntry q.converger.sense e)) :=
      perm_eraseFirst _ hperm
    exact h1.trans (map_eraseFirst_perm (companionEntry q.converger.sense) he).symm

theorem customInv_update {q : CustomPriorityQueue} (h : CustomInv q) (best : ℚ) :
    CustomInv (CustomPriorityQueue.update_for_best_objective q best).2 := by
  obtain ⟨hperm, hc⟩ := h
  simp only [CustomPriorityQueue.update_for_best_objective,
    NoThreadingMaxPriorityFirstQueue.filterQ]
  refine ⟨?_, heapCounters_filter hc _⟩
  have hfold :
      (((q.queue.heap.filter
          (fun e => !(q.converger.objective_can_improve best e.2.2.bound))).map
            (fun e => (e.2.1, e.2.2))).foldl
        (fun s p => eraseFirst s (sbBound q.converger.sense p.2, p.1, p.2))
        q.sorted_by_bound) =
      (((q.queue.heap.filter
          (fun e => !(q.converger.objective_can_improve best e.2.2.bound))).map
            (companionEntry q.converger.sense)).foldl
        (fun t x => eraseFirst t x) q.sorted_by_bound) := by
    rw [List.foldl_map, List.foldl_map]
    rfl
  have hsplit :
      q.sorted_by_bound.Perm
        ((q.queue.heap.filter
            (fun e => q.converger.objective_can_improve best e.2.2.bound)).map
          (companionEntry q.converger.sense) ++
         (q.queue.heap.filter
            (fun e => !(q.converger.objective_can_improve best e.2.2.bound))).map
          (companionEntry q.converger.sense)) := by
    refine hperm.trans ?_
    rw [← List.map_append]
    exact ((List.filter_append_perm _ q.queue.heap).map _).symm
  rw [hfold]
  exact perm_foldl_eraseFirst _ _ _ hsplit

theorem customInv_step {q : CustomPriorityQueue} (h : CustomInv q) (op : QOp) :
    CustomInv (stepOp q op) := by
  cases op with
  | put n => exact customInv_put h n
  | putBreadthFirst n => exact customInv_put h _
  | putDepthFirst n => exact customInv_put h _
  | get =>
    simp only [stepOp]
    cases hg : CustomPriorityQueue.get q with
    | none => exact h
    | some r => exact customInv_get h (by rw [hg])
  | update b => exact customInv_update h b

theorem step_converger (q : CustomPriorityQueue) (op : QOp) :
    (stepOp q op).converger = q.converger := by
  cases op with
  | put n => exact custom_put_converger q n
  | putBreadthFirst n => exact custom_put_converger q _
  | putDepthFirst n => exact custom_put_converger q _
  | get =>
    simp only [stepOp]
    cases hg : CustomPriorityQueue.get q with
    | none => rfl
    | some r =>
      cases hm : minEntry q.queue.heap with
      | none => simp [CustomPriorityQueue.get, hm] at hg
      | some e =>
        simp only [CustomPriorityQueue.get, hm, Option.some.injEq] at hg
        rw [← hg]
  | update b => rfl

theorem customInv_foldl :
    ∀ (ops : List QOp) (q : CustomPriorityQueue), CustomInv q →
      CustomInv (ops.foldl stepOp q) := by
  intro ops
  induction ops with
  | nil => intro q h; exact h
  | cons op ops ih =>
    intro q h
    exact ih _ (customInv_step h op)

theorem customInv_applyOps (best : ℚ) (conv : ConvergenceChecker) (ops : List QOp) :
    CustomInv (applyOps (CustomPriorityQueue.init best conv) ops) :=
  customInv_foldl ops _ (customInv_init best conv)

theorem applyOps_converger :
    ∀ (ops : List QOp) (q : CustomPriorityQueue),
      (applyOps q ops).converger = q.converger := by
  intro ops
  induction ops with
  | nil => intro q; rfl
  | cons op ops ih =>
    intro q
    have h1 := ih (stepOp q op)
    simp only [applyOps] at h1 ⊢
    rw [List.foldl_cons, h1, step_converger]

theorem dfInv_put {q : CustomPriorityQueue} (h : DFInv q) (data : Node) :
    DFInv (DepthFirstPriorityQueue.put q data).2.1 := by
  obtain ⟨hstamp, hc⟩ := h
  simp only [DepthFirstPriorityQueue.put, CustomPriorityQueue.put, Option.getD_some]
  split
  · refine ⟨?_, heapCounters_put hc _ _⟩
    intro e he
    simp only [NoThreadingMaxPriorityFirstQueue.put, List.mem_append,
      List.mem_singleton] at he
    rcases he with he | he
    · exact hstamp e he
    · subst he
      constructor <;> simp
  · exact ⟨hstamp, hc⟩

theorem bfInv_put {q : CustomPriorityQueue} (h : BFInv q) (data : Node) :
    BFInv (BreadthFirstPriorityQueue.put q data).2.1 := by
  obtain ⟨hstamp, hc⟩ := h
  simp only [BreadthFirstPriorityQueue.put, CustomPriorityQueue.put, Option.getD_some]
  split
  · refine ⟨?_, heapCounters_put hc _ _⟩
    intro e he
    simp only [NoThreadingMaxPriorityFirstQueue.put, List.mem_append,
      List.mem_singleton] at he
    rcases he with he | he
    · exact hstamp e he
    · subst he
      constructor <;> simp
  · exact ⟨hstamp, hc⟩

theorem dfInv_fromPuts (best : ℚ) (conv : ConvergenceChecker) (nodes : List Node) :
    DFInv (DepthFirstPriorityQueue.fromPuts best conv nodes) := by
  unfold DepthFirstPriorityQueue.fromPuts
  have hinit : DFInv (CustomPriorityQueue.init best conv) :=
    ⟨by simp [CustomPriorityQueue.init], heapCounters_init⟩
  revert hinit
  generalize CustomPriorityQueue.init best conv = q0
  revert q0
  induction nodes with
  | nil => intro q0 h; exact h
  | cons n ns ih =>
    intro q0 h
    simp only [List.foldl_cons]
    exact ih _ (dfInv_put h n)

theorem bfInv_fromPuts (best : ℚ) (conv : ConvergenceChecker) (nodes : List Node) :
    BFInv (BreadthFirstPriorityQueue.fromPuts best conv nodes) := by
  unfold BreadthFirstPriorityQueue.fromPuts
  have hinit : BFInv (CustomPriorityQueue.init best conv) :=
    ⟨by simp [CustomPriorityQueue.init], heapCounters_init⟩
  revert hinit
  generalize CustomPriorityQueue.init best conv = q0
  revert q0
  induction nodes with
  | nil => intro q0 h; exact h
  | cons n ns ih =>
    intro q0 h
    simp only [List.foldl_cons]
    exact ih _ (bfInv_put h n)

theorem foldl_lenPrefixed :
    ∀ (states : List (List ℚ)) (init : List ℚ),
      states.foldl (fun acc udata => acc ++ ((udata.length : ℚ) :: udata)) init =
        init ++ lenPrefixed states := by
  intro states
  induction states with
  | nil => intro init; simp [lenPrefixed]
  | cons u us ih =>
    intro init
    simp only [List.foldl_cons, lenPrefixed, ih, List.append_assoc]

theorem unpackStates_lenPrefixed :
    ∀ (states : List (List ℚ)),
      unpackStates states.length (lenPrefixed states) = some states := by
  intro states
  induction states with
  | nil => simp [unpackStates, lenPrefixed]
  | cons u us ih =>
    have hn : ((u.length : ℚ)).num.toNat = u.length := by simp
    simp only [lenPrefixed, List.length_cons, List.cons_append, unpackStates, hn]
    rw [if_pos ⟨by simp, by simp⟩]
    simp only [List.append_eq]
    rw [List.drop_left, List.take_left, ih]

/-- C4: the update frame packed by `DispatcherProxy._update` is the
contiguous double buffer `[best_objective, previous_bound,
explored_nodes_count, k]` followed, for each of the `k` node states, by its
length and then its payload doubles; decoding by the spec §4.2 layout
recovers every input exactly, and packing `best = 2.0`, `prev = 1.5`,
`explored = 7`, `states = [[0.1, 0.2], [0.3]]` yields
`[2.0, 1.5, 7.0, 2.0, 2.0, 0.1, 0.2, 1.0, 0.3]`. -/
theorem c4_update_frame_layout :
    (∀ (best prev : ℚ) (explored : ℕ) (states : List (List ℚ)),
      packUpdate best prev explored states =
        [best, prev, (explored : ℚ), (states.length : ℚ)] ++ lenPrefixed states) ∧
    (∀ (best prev : ℚ) (explored : ℕ) (states : List (List ℚ)),
      unpackUpdate (packUpdate best prev explored states) =
        some (best, prev, explored, states)) ∧
    packUpdate 2 (3 / 2) 7 [[1 / 10, 1 / 5], [3 / 10]] =
      [2, 3 / 2, 7, 2, 2, 1 / 10, 1 / 5, 1, 3 / 10] := by
  refine ⟨?_, ?_, ?_⟩
  · intro best prev explored states
    exact foldl_lenPrefixed states _
  · intro best prev explored states
    have h1 := foldl_lenPrefixed states
      [best, prev, (explored : ℚ), (states.length : ℚ)]
    have hk : ((states.length : ℚ)).num.toNat = states.length := by simp
    have he : ((explored : ℚ)).num.toNat = explored := by simp
    simp only [packUpdate] at h1 ⊢
    rw [h1]
    simp only [List.cons_append, List.nil_append, unpackUpdate, hk, he]
    rw [if_pos ⟨by simp, by simp⟩, unpackStates_lenPrefixed]
  · rw [packUpdate, foldl_lenPrefixed]
    norm_num [lenPrefixed]

/-- C5: the reply handling of `DispatcherProxy._update` receives exactly
one response: a `nowork` tag returns `(payload[0], None)` from the
single-double payload, a `work` tag returns the received state paired with
the best objective extracted from inside it, and any other tag is a fatal
error. -/
theorem c5_update_reply_dispatch (x : ℚ) (rest state : List ℚ) (tag : ℕ) :
    handleUpdateReply DispatcherResponse.nowork (x :: rest) = some (x, none) ∧
    handleUpdateReply DispatcherResponse.work state =
      some (extractBestObjective state, some state) ∧
    (tag ≠ DispatcherResponse.nowork → tag ≠ DispatcherResponse.work →
      handleUpdateReply tag state = none) := by
  refine ⟨?_, ?_, ?_⟩
  · simp [handleUpdateReply]
  · simp [handleUpdateReply, DispatcherResponse.work, DispatcherResponse.nowork]
  · intro h1 h2
    simp [handleUpdateReply, h1, h2]

theorem c5_update_reply_dispatch_witness :
    (999 ≠ DispatcherResponse.nowork ∧ 999 ≠ DispatcherResponse.work) ∧
    handleUpdateReply 999 [5] = none :=
  ⟨⟨by decide, by decide⟩,
    (c5_update_reply_dispatch 0 [] [5] 999).2.2 (by decide) (by decide)⟩

/-- C8 counterexample: the broadcast distributing the root worker's rank at
the end of `DispatcherProxy.__init__` is `self.comm.bcast`, i.e. it runs
on the global communicator, not within the worker sub-communicator `wcomm`
as claimed. -/
theorem c8_bcast_scope_counterexample :
    (initRootWorkerBcast 0 1).scope ≠ CommScope.worker := by
  decide

/-- C8 (amended): the root worker's rank within `wcomm` is distributed by
a broadcast on the global communicator `comm`, rooted at the root worker's
`comm` rank, so that afterwards every rank (in particular every worker)
holds the root worker's `wcomm` rank. -/
theorem c8_root_worker_rank_global_bcast (drank rwrank r : ℕ) :
    (initRootWorkerBcast drank rwrank).scope = CommScope.global ∧
    (initRootWorkerBcast drank rwrank).root = rwrank ∧
    bcastRun (initRootWorkerBcast drank rwrank) r = some (wcommRank drank rwrank) := by
  refine ⟨rfl, rfl, ?_⟩
  simp [bcastRun, initRootWorkerBcast]

/-- C10: `BreadthFirstPriorityQueue.put` and `DepthFirstPriorityQueue.put`
unconditionally overwrite the node's `queue_priority` with the
depth-derived value (`-tree_depth`, respectively `+tree_depth`) before the
improvement test runs — for every queue state and every node, including
nodes that already carried a caller-assigned priority and nodes the
subsequent improvement test rejects. -/
theorem c10_depth_queue_priority_overwrite (q : CustomPriorityQueue) (data : Node) :
    (BreadthFirstPriorityQueue.put q data).2.2 =
      { data with queue_priority := some (-(data.tree_depth : ℚ)) } ∧
    (DepthFirstPriorityQueue.put q data).2.2 =
      { data with queue_priority := some ((data.tree_depth : ℚ)) } :=
  ⟨rfl, rfl⟩

/-- C1: under minimize sense, `WorstBoundFirstPriorityQueue.put` stamps
`queue_priority = -bound` onto the node before pushing it at that priority
(so the stored heap key is the bound itself), and draining by `get()`
returns the queued entries in ascending `(bound, insertion counter)`
order: a node with strictly smaller bound comes out first, and equal-bound
ties are broken by ascending counter (FIFO). -/
theorem c1_worst_bound_first_minimize_order (conv : ConvergenceChecker)
    (best : ℚ) (nodes : List Node)
    (hs : conv.sense = Sense.minimize)
    (q : WorstBoundFirstPriorityQueue)
    (hq : q = WorstBoundFirstPriorityQueue.fromPuts best conv nodes) :
    (∀ e ∈ q.queue.heap,
      e.2.2.queue_priority = some (-e.2.2.bound) ∧ e.1 = e.2.2.bound) ∧
    (drainList q.queue.heap).Perm q.queue.heap ∧
    (drainList q.queue.heap).Pairwise (fun a b =>
      a.2.2.bound < b.2.2.bound ∨
      (a.2.2.bound = b.2.2.bound ∧ a.2.1 < b.2.1)) ∧
    WorstBoundFirstPriorityQueue.drain q =
      (drainList q.queue.heap).map (fun e => e.2.2) := by
  subst hq
  obtain ⟨hstamp, hnd, hlt⟩ := wbfMinInv_fromPuts best conv nodes hs
  refine ⟨?_, drainList_perm _, ?_, wbf_drain_eq _⟩
  · intro e he
    exact ⟨(hstamp e he).2, (hstamp e he).1⟩
  · have hpw := drainList_pairwise hnd
    refine List.Pairwise.imp_of_mem ?_ hpw
    intro a b ha hb hab
    have hamem := (drainList_perm _).subset ha
    have hbmem := (drainList_perm _).subset hb
    have hka := (hstamp a hamem).1
    have hkb := (hstamp b hbmem).1
    unfold keyLt entryKey at hab
    rcases hab with h | ⟨h1, h2⟩
    · exact Or.inl (hka ▸ hkb ▸ h)
    · exact Or.inr ⟨hka ▸ hkb ▸ h1, h2⟩

theorem c1_worst_bound_first_minimize_order_witness :
    convMin.sense = Sense.minimize ∧
    ((∀ e ∈ (WorstBoundFirstPriorityQueue.fromPuts 10 convMin nodesA).queue.heap,
      e.2.2.queue_priority = some (-e.2.2.bound) ∧ e.1 = e.2.2.bound) ∧
    (drainList (WorstBoundFirstPriorityQueue.fromPuts 10 convMin nodesA).queue.heap).Perm
      (WorstBoundFirstPriorityQueue.fromPuts 10 convMin nodesA).queue.heap ∧
    (drainList (WorstBoundFirstPriorityQueue.fromPuts 10 convMin nodesA).queue.heap).Pairwise
      (fun a b => a.2.2.bound < b.2.2.bound ∨
        (a.2.2.bound = b.2.2.bound ∧ a.2.1 < b.2.1)) ∧
    WorstBoundFirstPriorityQueue.drain
        (WorstBoundFirstPriorityQueue.fromPuts 10 convMin nodesA) =
      (drainList (WorstBoundFirstPriorityQueue.fromPuts 10 convMin nodesA).queue.heap).map
        (fun e => e.2.2)) :=
  ⟨rfl, c1_worst_bound_first_minimize_order convMin 10 nodesA rfl _ rfl⟩

/-- C9: `DepthFirstPriorityQueue.put` stamps `queue_priority = tree_depth`
and `BreadthFirstPriorityQueue.put` stamps `queue_priority = -tree_depth`
before delegating to the custom queue, so for any sequence of puts of
nodes with non-negative tree depths, draining by `get()` serves the
depth-first queue in non-increasing `tree_depth` order and the
breadth-first queue in non-decreasing `tree_depth` order, equal-depth ties
broken by ascending insertion counter. -/
theorem c9_depth_breadth_first_order (best : ℚ) (conv : ConvergenceChecker)
    (nodes : List Node) (hd : ∀ n ∈ nodes, 0 ≤ n.tree_depth)
    (qd qb : CustomPriorityQueue)
    (hqd : qd = DepthFirstPriorityQueue.fromPuts best conv nodes)
    (hqb : qb = BreadthFirstPriorityQueue.fromPuts best conv nodes) :
    (∀ e ∈ qd.queue.heap,
      e.2.2.queue_priority = some ((e.2.2.tree_depth : ℚ))) ∧
    (drainList qd.queue.heap).Pairwise (fun a b =>
      b.2.2.tree_depth < a.2.2.tree_depth ∨
      (a.2.2.tree_depth = b.2.2.tree_depth ∧ a.2.1 < b.2.1)) ∧
    CustomPriorityQueue.drain qd =
      (drainList qd.queue.heap).map (fun e => e.2.2) ∧
    (∀ e ∈ qb.queue.heap,
      e.2.2.queue_priority = some (-(e.2.2.tree_depth : ℚ))) ∧
    (drainList qb.queue.heap).Pairwise (fun a b =>
      a.2.2.tree_depth < b.2.2.tree_depth ∨
      (a.2.2.tree_depth = b.2.2.tree_depth ∧ a.2.1 < b.2.1)) ∧
    CustomPriorityQueue.drain qb =
      (drainList qb.queue.heap).map (fun e => e.2.2) := by
  subst hqd
  subst hqb
  obtain ⟨hdstamp, hdnd, hdlt⟩ := dfInv_fromPuts best conv nodes
  obtain ⟨hbstamp, hbnd, hblt⟩ := bfInv_fromPuts best conv nodes
  refine ⟨fun e he => (hdstamp e he).2, ?_, custom_drain_eq _,
    fun e he => (hbstamp e he).2, ?_, custom_drain_eq _⟩
  · refine List.Pairwise.imp_of_mem ?_ (drainList_pairwise hdnd)
    intro a b ha hb hab
    have hamem := (drainList_perm _).subset ha
    have hbmem := (drainList_perm _).subset hb
    have hka := (hdstamp a hamem).1
    have hkb := (hdstamp b hbmem).1
    unfold keyLt entryKey at hab
    rw [hka, hkb] at hab
    rcases hab with h | ⟨h1, h2⟩
    · refine Or.inl ?_
      have : (b.2.2.tree_depth : ℚ) < (a.2.2.tree_depth : ℚ) := by linarith
      exact_mod_cast this
    · refine Or.inr ⟨?_, h2⟩
      have : (a.2.2.tree_depth : ℚ) = (b.2.2.tree_depth : ℚ) := by linarith
      exact_mod_cast this
  · refine List.Pairwise.imp_of_mem ?_ (drainList_pairwise hbnd)
    intro a b ha hb hab
    have hamem := (drainList_perm _).subset ha
    have hbmem := (drainList_perm _).subset hb
    have hka := (hbstamp a hamem).1
    have hkb := (hbstamp b hbmem).1
    unfold keyLt entryKey at hab
    rw [hka, hkb] at hab
    rcases hab with h | ⟨h1, h2⟩
    · exact Or.inl (by exact_mod_cast h)
    · exact Or.inr ⟨by exact_mod_cast h1, h2⟩

theorem c9_depth_breadth_first_order_witness :
    (∀ n ∈ nodesA, 0 ≤ n.tree_depth) ∧
    ((∀ e ∈ (DepthFirstPriorityQueue.fromPuts 10 convMin nodesA).queue.heap,
      e.2.2.queue_priority = some ((e.2.2.tree_depth : ℚ))) ∧
    (drainList (DepthFirstPriorityQueue.fromPuts 10 convMin nodesA).queue.heap).Pairwise
      (fun a b => b.2.2.tree_depth < a.2.2.tree_depth ∨
        (a.2.2.tree_depth = b.2.2.tree_depth ∧ a.2.1 < b.2.1)) ∧
    CustomPriorityQueue.drain (DepthFirstPriorityQueue.fromPuts 10 convMin nodesA) =
      (drainList (DepthFirstPriorityQueue.fromPuts 10 convMin nodesA).queue.heap).map
        (fun e => e.2.2) ∧
    (∀ e ∈ (BreadthFirstPriorityQueue.fromPuts 10 convMin nodesA).queue.heap,
      e.2.2.queue_priority = some (-(e.2.2.tree_depth : ℚ))) ∧
    (drainList (BreadthFirstPriorityQueue.fromPuts 10 convMin nodesA).queue.heap).Pairwise
      (fun a b => a.2.2.tree_depth < b.2.2.tree_depth ∨
        (a.2.2.tree_depth = b.2.2.tree_depth ∧ a.2.1 < b.2.1)) ∧
    CustomPriorityQueue.drain (BreadthFirstPriorityQueue.fromPuts 10 convMin nodesA) =
      (drainList (BreadthFirstPriorityQueue.fromPuts 10 convMin nodesA).queue.heap).map
        (fun e => e.2.2)) :=
  ⟨by decide, c9_depth_breadth_first_order 10 convMin nodesA (by decide) _ _ rfl rfl⟩

/-- C2: after `update_for_best_objective(B1)` every node remaining in the
queue satisfies `converger.objective_can_improve(B1, node.bound)`, every
node in the returned removed list fails that test, and in the custom
variant the primary heap and the `sorted_by_bound` index have equal length
afterwards (stated for every reachable custom-queue state and for every
worst-bound-first state). -/
theorem c2_update_for_best_objective_purge (best0 B1 : ℚ)
    (conv : ConvergenceChecker) (ops : List QOp) (q : CustomPriorityQueue)
    (hq : q = applyOps (CustomPriorityQueue.init best0 conv) ops)
    (wq : WorstBoundFirstPriorityQueue) :
    (∀ e ∈ (CustomPriorityQueue.update_for_best_objective q B1).2.queue.heap,
      q.converger.objective_can_improve B1 e.2.2.bound = true) ∧
    (∀ n ∈ (CustomPriorityQueue.update_for_best_objective q B1).1,
      q.converger.objective_can_improve B1 n.bound = false) ∧
    (CustomPriorityQueue.update_for_best_objective q B1).2.queue.heap.length =
      (CustomPriorityQueue.update_for_best_objective q B1).2.sorted_by_bound.length ∧
    (∀ e ∈ (WorstBoundFirstPriorityQueue.update_for_best_objective wq B1).2.queue.heap,
      wq.converger.objective_can_improve B1 e.2.2.bound = true) ∧
    (∀ n ∈ (WorstBoundFirstPriorityQueue.update_for_best_objective wq B1).1,
      wq.converger.objective_can_improve B1 n.bound = false) := by
  refine ⟨?_, ?_, ?_, ?_, ?_⟩
  · intro e he
    simp only [CustomPriorityQueue.update_for_best_objective,
      NoThreadingMaxPriorityFirstQueue.filterQ, List.mem_filter] at he
    exact he.2
  · intro n hn
    simp only [CustomPriorityQueue.update_for_best_objective,
      NoThreadingMaxPriorityFirstQueue.filterQ, List.map_map, List.mem_map,
      List.mem_filter, Function.comp] at hn
    obtain ⟨e, ⟨-, hfail⟩, rfl⟩ := hn
    simpa using hfail
  · have hinv : CustomInv (CustomPriorityQueue.update_for_best_objective q B1).2 := by
      subst hq
      exact customInv_update (customInv_applyOps best0 conv ops) B1
    obtain ⟨hperm, -⟩ := hinv
    rw [hperm.length_eq, List.length_map]
  · intro e he
    simp only [WorstBoundFirstPriorityQueue.update_for_best_objective,
      NoThreadingMaxPriorityFirstQueue.filterQ, List.mem_filter] at he
    exact he.2
  · intro n hn
    simp only [WorstBoundFirstPriorityQueue.update_for_best_objective,
      NoThreadingMaxPriorityFirstQueue.filterQ, List.map_map, List.mem_map,
      List.mem_filter, Function.comp] at hn
    obtain ⟨e, ⟨-, hfail⟩, rfl⟩ := hn
    simpa using hfail

theorem c2_update_for_best_objective_purge_witness :
    (applyOps (CustomPriorityQueue.init 10 convMin)
        [QOp.put (mkNode 1 0 (some 1)), QOp.put (mkNode 4 1 (some 2)),
         QOp.put (mkNode 7 1 (some 3)), QOp.put (mkNode 9 2 (some 4))] =
      applyOps (CustomPriorityQueue.init 10 convMin)
        [QOp.put (mkNode 1 0 (some 1)), QOp.put (mkNode 4 1 (some 2)),
         QOp.put (mkNode 7 1 (some 3)), QOp.put (mkNode 9 2 (some 4))]) ∧
    ((∀ e ∈ (CustomPriorityQueue.update_for_best_objective
        (applyOps (CustomPriorityQueue.init 10 convMin)
          [QOp.put (mkNode 1 0 (some 1)), QOp.put (mkNode 4 1 (some 2)),
           QOp.put (mkNode 7 1 (some 3)), QOp.put (mkNode 9 2 (some 4))]) 5).2.queue.heap,
      (applyOps (CustomPriorityQueue.init 10 convMin)
          [QOp.put (mkNode 1 0 (some 1)), QOp.put (mkNode 4 1 (some 2)),
           QOp.put (mkNode 7 1 (some 3)), QOp.put (mkNode 9 2 (some 4))]).converger.objective_can_improve
        5 e.2.2.bound = true) ∧
    (∀ n ∈ (CustomPriorityQueue.update_for_best_objective
        (applyOps (CustomPriorityQueue.init 10 convMin)
          [QOp.put (mkNode 1 0 (some 1)), QOp.put (mkNode 4 1 (some 2)),
           QOp.put (mkNode 7 1 (some 3)), QOp.put (mkNode 9 2 (some 4))]) 5).1,
      (applyOps (CustomPriorityQueue.init 10 convMin)
          [QOp.put (mkNode 1 0 (some 1)), QOp.put (mkNode 4 1 (some 2)),
           QOp.put (mkNode 7 1 (some 3)), QOp.put (mkNode 9 2 (some 4))]).converger.objective_can_improve
        5 n.bound = false) ∧
    (CustomPriorityQueue.update_for_best_objective
        (applyOps (CustomPriorityQueue.init 10 convMin)
          [QOp.put (mkNode 1 0 (some 1)), QOp.put (mkNode 4 1 (some 2)),
           QOp.put (mkNode 7 1 (some 3)), QOp.put (mkNode 9 2 (some 4))]) 5).2.queue.heap.length =
      (CustomPriorityQueue.update_for_best_objective
        (applyOps (CustomPriorityQueue.init 10 convMin)
          [QOp.put (mkNode 1 0 (some 1)), QOp.put (mkNode 4 1 (some 2)),
           QOp.put (mkNode 7 1 (some 3)), QOp.put (mkNode 9 2 (some 4))]) 5).2.sorted_by_bound.length ∧
    (∀ e ∈ (WorstBoundFirstPriorityQueue.update_for_best_objective
        (WorstBoundFirstPriorityQueue.fromPuts 10 convMin nodesA) 5).2.queue.heap,
      (WorstBoundFirstPriorityQueue.fromPuts 10 convMin nodesA).converger.objective_can_improve
        5 e.2.2.bound = true) ∧
    (∀ n ∈ (WorstBoundFirstPriorityQueue.update_for_best_objective
        (WorstBoundFirstPriorityQueue.fromPuts 10 convMin nodesA) 5).1,
      (WorstBoundFirstPriorityQueue.fromPuts 10 convMin nodesA).converger.objective_can_improve
        5 n.bound = false)) :=
  ⟨rfl, c2_update_for_best_objective_purge 10 5 convMin
    [QOp.put (mkNode 1 0 (some 1)), QOp.put (mkNode 4 1 (some 2)),
     QOp.put (mkNode 7 1 (some 3)), QOp.put (mkNode 9 2 (some 4))] _ rfl
    (WorstBoundFirstPriorityQueue.fromPuts 10 convMin nodesA)⟩

/-- C3: on every custom-strategy queue state reachable by any sequence of
put (plain, breadth-first or depth-first), get and
update_for_best_objective operations, the primary heap and the
`sorted_by_bound` index have equal size, and every primary-heap counter
occurs exactly once among the `sorted_by_bound` entries. -/
theorem c3_two_index_sync (best0 : ℚ) (conv : ConvergenceChecker)
    (ops : List QOp) (q : CustomPriorityQueue)
    (hq : q = applyOps (CustomPriorityQueue.init best0 conv) ops) :
    q.queue.heap.length = q.sorted_by_bound.length ∧
    ∀ e ∈ q.queue.heap,
      (q.sorted_by_bound.map (fun s => s.2.1)).count e.2.1 = 1 := by
  subst hq
  obtain ⟨hperm, hnd, hlt⟩ := customInv_applyOps best0 conv ops
  constructor
  · rw [hperm.length_eq, List.length_map]
  · intro e he
    have hmap := hperm.map (fun s => s.2.1)
    rw [List.map_map] at hmap
    have hmap2 : ((applyOps (CustomPriorityQueue.init best0 conv)
        ops).sorted_by_bound.map (fun s => s.2.1)).Perm
        ((applyOps (CustomPriorityQueue.init best0 conv)
          ops).queue.heap.map (fun x => x.2.1)) := hmap
    rw [hmap2.count_eq]
    exact List.count_eq_one_of_mem hnd (List.mem_map_of_mem _ he)

theorem c3_two_index_sync_witness :
    (applyOps (CustomPriorityQueue.init 10 convMin)
        [QOp.put (mkNode 1 0 (some 1)), QOp.putDepthFirst (mkNode 4 1 none),
         QOp.putBreadthFirst (mkNode 7 2 none), QOp.get, QOp.update 6] =
      applyOps (CustomPriorityQueue.init 10 convMin)
        [QOp.put (mkNode 1 0 (some 1)), QOp.putDepthFirst (mkNode 4 1 none),
         QOp.putBreadthFirst (mkNode 7 2 none), QOp.get, QOp.update 6]) ∧
    ((applyOps (CustomPriorityQueue.init 10 convMin)
        [QOp.put (mkNode 1 0 (some 1)), QOp.putDepthFirst (mkNode 4 1 none),
         QOp.putBreadthFirst (mkNode 7 2 none), QOp.get, QOp.update 6]).queue.heap.length =
      (applyOps (CustomPriorityQueue.init 10 convMin)
        [QOp.put (mkNode 1 0 (some 1)), QOp.putDepthFirst (mkNode 4 1 none),
         QOp.putBreadthFirst (mkNode 7 2 none), QOp.get, QOp.update 6]).sorted_by_bound.length ∧
    ∀ e ∈ (applyOps (CustomPriorityQueue.init 10 convMin)
        [QOp.put (mkNode 1 0 (some 1)), QOp.putDepthFirst (mkNode 4 1 none),
         QOp.putBreadthFirst (mkNode 7 2 none), QOp.get, QOp.update 6]).queue.heap,
      ((applyOps (CustomPriorityQueue.init 10 convMin)
        [QOp.put (mkNode 1 0 (some 1)), QOp.putDepthFirst (mkNode 4 1 none),
         QOp.putBreadthFirst (mkNode 7 2 none), QOp.get, QOp.update 6]).sorted_by_bound.map
          (fun s => s.2.1)).count e.2.1 = 1) :=
  ⟨rfl, c3_two_index_sync 10 convMin
    [QOp.put (mkNode 1 0 (some 1)), QOp.putDepthFirst (mkNode 4 1 none),
     QOp.putBreadthFirst (mkNode 7 2 none), QOp.get, QOp.update 6] _ rfl⟩

theorem custom_bound_min_key (q : CustomPriorityQueue)
    (hinv : CustomInv q) (hne : q.queue.heap ≠ []) :
    ∃ e ∈ q.queue.heap, CustomPriorityQueue.bound q = some e.2.2.bound ∧
      ∀ f ∈ q.queue.heap,
        sbBound q.converger.sense e.2.2 ≤ sbBound q.converger.sense f.2.2 := by
  obtain ⟨hperm, hnd, hlt⟩ := hinv
  have hsne : q.sorted_by_bound ≠ [] := by
    intro h
    rw [h] at hperm
    exact hne (List.map_eq_nil_iff.mp hperm.symm.eq_nil)
  cases hs : minEntry q.sorted_by_bound with
  | none => exact absurd (minEntry_eq_none.mp hs) hsne
  | some s =>
    have hsmem := minEntry_mem hs
    have hsmem2 := hperm.subset hsmem
    obtain ⟨e, he, hse⟩ := List.mem_map.mp hsmem2
    refine ⟨e, he, ?_, ?_⟩
    · simp only [CustomPriorityQueue.bound, hs]
      rw [← hse]
      rfl
    · intro f hf
      have hfmem : companionEntry q.converger.sense f ∈ q.sorted_by_bound :=
        hperm.symm.subset (List.mem_map_of_mem _ hf)
      have hmin := minEntry_min hs _ hfmem
      rw [← hse] at hmin
      unfold keyLt entryKey companionEntry at hmin
      push_neg at hmin
      exact hmin.1

/-- C6: for every queue variant, `bound()` returns `None` on an empty
queue and `get()` returns `None` on an empty queue; on any non-empty
reachable custom-strategy queue (hence also its breadth-first and
depth-first specializations), `bound()` returns the minimum of the queued
nodes' bounds under minimize sense and the maximum under maximize
sense. -/
theorem c6_bound_and_get (wq : WorstBoundFirstPriorityQueue)
    (best0 : ℚ) (conv : ConvergenceChecker) (ops : List QOp)
    (q : CustomPriorityQueue)
    (hq : q = applyOps (CustomPriorityQueue.init best0 conv) ops) :
    (wq.queue.heap = [] →
      WorstBoundFirstPriorityQueue.bound wq = none ∧
      WorstBoundFirstPriorityQueue.get wq = none) ∧
    (q.queue.heap = [] →
      CustomPriorityQueue.bound q = none ∧ CustomPriorityQueue.get q = none) ∧
    (conv.sense = Sense.minimize → q.queue.heap ≠ [] →
      ∃ e ∈ q.queue.heap, CustomPriorityQueue.bound q = some e.2.2.bound ∧
        ∀ f ∈ q.queue.heap, e.2.2.bound ≤ f.2.2.bound) ∧
    (conv.sense = Sense.maximize → q.queue.heap ≠ [] →
      ∃ e ∈ q.queue.heap, CustomPriorityQueue.bound q = some e.2.2.bound ∧
        ∀ f ∈ q.queue.heap, f.2.2.bound ≤ e.2.2.bound) := by
  subst hq
  have hconv := applyOps_converger ops (CustomPriorityQueue.init best0 conv)
  refine ⟨?_, ?_, ?_, ?_⟩
  · intro hw
    constructor
    · simp [WorstBoundFirstPriorityQueue.bound,
        NoThreadingMaxPriorityFirstQueue.next, hw, minEntry]
    · simp [WorstBoundFirstPriorityQueue.get,
        NoThreadingMaxPriorityFirstQueue.get, hw, minEntry]
  · intro hc
    obtain ⟨hperm, -, -⟩ := customInv_applyOps best0 conv ops
    rw [hc] at hperm
    have hsorted := hperm.eq_nil
    constructor
    · simp [CustomPriorityQueue.bound, hsorted, minEntry]
    · simp [CustomPriorityQueue.get, hc, minEntry]
  · intro hsen hne
    obtain ⟨e, he, hb, hmin⟩ :=
      custom_bound_min_key _ (customInv_applyOps best0 conv ops) hne
    refine ⟨e, he, hb, ?_⟩
    intro f hf
    have h1 := hmin f hf
    rw [hconv] at h1
    simp only [CustomPriorityQueue.init] at h1
    rw [hsen] at h1
    simpa [sbBound] using h1
  · intro hsen hne
    obtain ⟨e, he, hb, hmin⟩ :=
      custom_bound_min_key _ (customInv_applyOps best0 conv ops) hne
    refine ⟨e, he, hb, ?_⟩
    intro f hf
    have h1 := hmin f hf
    rw [hconv] at h1
    simp only [CustomPriorityQueue.init] at h1
    rw [hsen] at h1
    simp [sbBound] at h1
    linarith

theorem c6_bound_and_get_witness :
    (WorstBoundFirstPriorityQueue.bound
        (WorstBoundFirstPriorityQueue.init 10 convMin) = none ∧
     WorstBoundFirstPriorityQueue.get
        (WorstBoundFirstPriorityQueue.init 10 convMin) = none) ∧
    (CustomPriorityQueue.bound (applyOps (CustomPriorityQueue.init 10 convMin) []) = none ∧
     CustomPriorityQueue.get (applyOps (CustomPriorityQueue.init 10 convMin) []) = none) ∧
    (∃ e ∈ (applyOps (CustomPriorityQueue.init 10 convMin)
        [QOp.put (mkNode 5 0 (some 1)), QOp.put (mkNode 1 0 (some 2))]).queue.heap,
      CustomPriorityQueue.bound (applyOps (CustomPriorityQueue.init 10 convMin)
        [QOp.put (mkNode 5 0 (some 1)), QOp.put (mkNode 1 0 (some 2))]) =
          some e.2.2.bound ∧
      ∀ f ∈ (applyOps (CustomPriorityQueue.init 10 convMin)
        [QOp.put (mkNode 5 0 (some 1)), QOp.put (mkNode 1 0 (some 2))]).queue.heap,
        e.2.2.bound ≤ f.2.2.bound) ∧
    (∃ e ∈ (applyOps (CustomPriorityQueue.init 10 convMax)
        [QOp.put (mkNode 15 0 (some 1)), QOp.put (mkNode 20 0 (some 2))]).queue.heap,
      CustomPriorityQueue.bound (applyOps (CustomPriorityQueue.init 10 convMax)
        [QOp.put (mkNode 15 0 (some 1)), QOp.put (mkNode 20 0 (some 2))]) =
          some e.2.2.bound ∧
      ∀ f ∈ (applyOps (CustomPriorityQueue.init 10 convMax)
        [QOp.put (mkNode 15 0 (some 1)), QOp.put (mkNode 20 0 (some 2))]).queue.heap,
        f.2.2.bound ≤ e.2.2.bound) :=
  ⟨(c6_bound_and_get (WorstBoundFirstPriorityQueue.init 10 convMin)
      10 convMin [] _ rfl).1 rfl,
   (c6_bound_and_get (WorstBoundFirstPriorityQueue.init 10 convMin)
      10 convMin [] _ rfl).2.1 rfl,
   (c6_bound_and_get (WorstBoundFirstPriorityQueue.init 10 convMin)
      10 convMin [QOp.put (mkNode 5 0 (some 1)), QOp.put (mkNode 1 0 (some 2))]
      _ rfl).2.2.1 rfl (by decide),
   (c6_bound_and_get (WorstBoundFirstPriorityQueue.init 10 convMax)
      10 convMax [QOp.put (mkNode 15 0 (some 1)), QOp.put (mkNode 20 0 (some 2))]
      _ rfl).2.2.2 rfl (by decide)⟩

theorem maxloc_eq_none {l : List (ℕ × ℕ)} : maxloc l = none ↔ l = [] := by
  cases l with
  | nil => simp [maxloc]
  | cons p ps =>
    simp only [maxloc]
    cases maxloc ps with
    | none => simp
    | some m =>
      by_cases h : p.1 < m.1 <;> simp [h]

theorem maxloc_mem : ∀ {l : List (ℕ × ℕ)} {p : ℕ × ℕ},
    maxloc l = some p → p ∈ l := by
  intro l
  induction l with
  | nil => intro p h; simp [maxloc] at h
  | cons x xs ih =>
    intro p h
    cases hm : maxloc xs with
    | none =>
      simp only [maxloc, hm] at h
      injection h with h
      exact h ▸ List.mem_cons_self x xs
    | some m =>
      simp only [maxloc, hm] at h
      by_cases hk : x.1 < m.1
      · rw [if_pos hk] at h
        injection h with h
        exact List.mem_cons_of_mem x (ih (h ▸ hm))
      · rw [if_neg hk] at h
        injection h with h
        exact h ▸ List.mem_cons_self x xs

theorem maxloc_max : ∀ {l : List (ℕ × ℕ)} {p : ℕ × ℕ},
    maxloc l = some p → ∀ x ∈ l, x.1 ≤ p.1 := by
  intro l
  induction l with
  | nil => intro p h; simp [maxloc] at h
  | cons y ys ih =>
    intro p h x hx
    cases hm : maxloc ys with
    | none =>
      simp only [maxloc, hm] at h
      injection h with h
      subst h
      have hys : ys = [] := maxloc_eq_none.mp hm
      subst hys
      rcases List.mem_cons.mp hx with rfl | hx
      · exact le_rfl
      · exact absurd hx (List.not_mem_nil x)
    | some m =>
      simp only [maxloc, hm] at h
      by_cases hk : y.1 < m.1
      · rw [if_pos hk] at h
        injection h with h
        subst h
        rcases List.mem_cons.mp hx with rfl | hx
        · exact le_of_lt hk
        · exact ih hm x hx
      · rw [if_neg hk] at h
        injection h with h
        subst h
        rcases List.mem_cons.mp hx with rfl | hx
        · exact le_rfl
        · exact le_trans (ih hm x hx) (not_lt.mp hk)

theorem mem_rankPairs :
    ∀ (l : List ℕ) (k v r : ℕ),
      (v, r) ∈ rankPairs l k ↔ k ≤ r ∧ l[r - k]? = some v := by
  intro l
  induction l with
  | nil => intro k v r; simp [rankPairs]
  | cons t ts ih =>
    intro k v r
    simp only [rankPairs, List.mem_cons, ih, Prod.mk.injEq]
    constructor
    · rintro (⟨rfl, rfl⟩ | ⟨hk, hget⟩)
      · simp
      · refine ⟨by omega, ?_⟩
        have heq : r - k = (r - (k + 1)) + 1 := by omega
        rw [heq, List.getElem?_cons_succ]
        exact hget
    · rintro ⟨hk, hget⟩
      by_cases hr : r = k
      · subst hr
        simp only [Nat.sub_self, List.getElem?_cons_zero, Option.some.injEq] at hget
        exact Or.inl ⟨hget.symm, rfl⟩
      · right
        refine ⟨by omega, ?_⟩
        have heq : r - k = (r - (k + 1)) + 1 := by omega
        rw [heq, List.getElem?_cons_succ] at hget
        exact hget

theorem sum_one_unique :
    ∀ (l : List ℕ), l.sum = 1 → (∀ t ∈ l, t ≤ 1) →
      ∃ i : ℕ, l[i]? = some 1 ∧ ∀ j : ℕ, l[j]? = some 1 → j = i := by
  intro l
  induction l with
  | nil => intro h; simp at h
  | cons t ts ih =>
    intro hsum hle
    simp only [List.sum_cons] at hsum
    by_cases ht : t = 1
    · subst ht
      have hts : ts.sum = 0 := by omega
      refine ⟨0, by simp, ?_⟩
      intro j hj
      cases j with
      | zero => rfl
      | succ j =>
        rw [List.getElem?_cons_succ] at hj
        have h1 : (1 : ℕ) ∈ ts := List.getElem?_mem hj
        have := List.sum_eq_zero_iff.mp hts 1 h1
        omega
    · have ht0 : t = 0 := by
        have := hle t (List.mem_cons_self t ts)
        omega
      subst ht0
      simp only [Nat.zero_add] at hsum
      obtain ⟨i, hi, huniq⟩ := ih hsum (fun x hx => hle x (List.mem_cons_of_mem _ hx))
      refine ⟨i + 1, by simpa using hi, ?_⟩
      intro j hj
      cases j with
      | zero => simp at hj
      | succ j =>
        rw [List.getElem?_cons_succ] at hj
        exact congrArg Nat.succ (huniq j hj)

/-- C7: for every process group of size at least 2 whose ptypes are worker
or dispatcher typecodes summing to 1 (exactly one dispatcher), the
handshake of `DispatcherProxy._init` succeeds, the elected `drank` is the
unique dispatcher rank (hence the same deterministic value on every rank
of the argmax reduction), and the designated root worker is
`comm.size - 1`, decremented once when that equals `drank`, so that the
root worker rank differs from `drank` and is a valid rank. -/
theorem c7_handshake_election (ptypes : List ℕ) (h2 : 2 ≤ ptypes.length)
    (h01 : ∀ t ∈ ptypes, t ≤ 1) (hsum : ptypes.sum = 1) :
    ∃ drank : ℕ, ∃ root : ℤ, handshakeInit ptypes = some (drank, root) ∧
      ptypes[drank]? = some 1 ∧
      (∀ r : ℕ, ptypes[r]? = some 1 → r = drank) ∧
      root = (if (drank : ℤ) = (ptypes.length : ℤ) - 1
              then (ptypes.length : ℤ) - 2 else (ptypes.length : ℤ) - 1) ∧
      root ≠ (drank : ℤ) ∧ 0 ≤ root ∧ root < (ptypes.length : ℤ) := by
  obtain ⟨i, hi, huniq⟩ := sum_one_unique ptypes hsum h01
  have hpair : ((1 : ℕ), i) ∈ rankPairs ptypes 0 := by
    rw [mem_rankPairs]
    exact ⟨Nat.zero_le i, by simpa using hi⟩
  cases hmax : maxloc (rankPairs ptypes 0) with
  | none =>
    rw [maxloc_eq_none] at hmax
    rw [hmax] at hpair
    exact absurd hpair (List.not_mem_nil _)
  | some p =>
    have hpmem := maxloc_mem hmax
    obtain ⟨-, hpget⟩ := (mem_rankPairs ptypes 0 p.1 p.2).mp (by simpa using hpmem)
    rw [Nat.sub_zero] at hpget
    have hp1le : p.1 ≤ 1 := h01 p.1 (List.getElem?_mem hpget)
    have hp1ge : 1 ≤ p.1 := maxloc_max hmax (1, i) hpair
    have hp1 : p.1 = 1 := le_antisymm hp1le hp1ge
    have hdr : p.2 = i := huniq p.2 (hp1 ▸ hpget)
    have hilen : i < ptypes.length := (List.getElem?_eq_some.mp hi).1
    have hiZ : (i : ℤ) < (ptypes.length : ℤ) := by exact_mod_cast hilen
    have h2Z : (2 : ℤ) ≤ (ptypes.length : ℤ) := by exact_mod_cast h2
    refine ⟨p.2,
      (if ((p.2 : ℤ) = (ptypes.length : ℤ) - 1) then (ptypes.length : ℤ) - 2
       else (ptypes.length : ℤ) - 1), ?_, ?_, ?_, rfl, ?_, ?_, ?_⟩
    · simp only [handshakeInit, if_pos hsum, hmax]
      rw [if_pos (by rw [hp1]; rfl)]
    · rw [hdr]
      exact hi
    · intro r hr
      rw [hdr]
      exact huniq r hr
    · rw [hdr]
      by_cases hcase : ((i : ℤ) = (ptypes.length : ℤ) - 1)
      · rw [if_pos hcase]
        omega
      · rw [if_neg hcase]
        omega
    · rw [hdr]
      by_cases hcase : ((i : ℤ) = (ptypes.length : ℤ) - 1)
      · rw [if_pos hcase]
        omega
      · rw [if_neg hcase]
        omega
    · rw [hdr]
      by_cases hcase : ((i : ℤ) = (ptypes.length : ℤ) - 1)
      · rw [if_pos hcase]
        omega
      · rw [if_neg hcase]
        omega

theorem c7_handshake_election_witness :
    (2 ≤ ([0, 1, 0] : List ℕ).length ∧ (∀ t ∈ ([0, 1, 0] : List ℕ), t ≤ 1) ∧
      ([0, 1, 0] : List ℕ).sum = 1) ∧
    (∃ drank : ℕ, ∃ root : ℤ,
      handshakeInit [0, 1, 0] = some (drank, root) ∧
      ([0, 1, 0] : List ℕ)[drank]? = some 1 ∧
      (∀ r : ℕ, ([0, 1, 0] : List ℕ)[r]? = some 1 → r = drank) ∧
      root = (if (drank : ℤ) = (([0, 1, 0] : List ℕ).length : ℤ) - 1
              then (([0, 1, 0] : List ℕ).length : ℤ) - 2
              else (([0, 1, 0] : List ℕ).length : ℤ) - 1) ∧
      root ≠ (drank : ℤ) ∧ 0 ≤ root ∧
      root < (([0, 1, 0] : List ℕ).length : ℤ)) :=
  ⟨⟨by decide, by decide, by decide⟩,
    c7_handshake_election [0, 1, 0] (by decide) (by decide) (by decide)⟩
